/-
Verification of the bigbang archive engine (src/bigbang/archive.py):
normalization (`Archive.__init__`), activity aggregation
(`Archive.compute_activity`), entity resolution (`Archive.resolve_entities`),
thread reconstruction (`Archive.get_threads`) and footer detection
(`find_footer`), shallowly embedded as executable Lean definitions.
-/
import Mathlib

namespace BigBang

/-! ## Message records

A raw row of the input DataFrame.  `Date` is modelled post-coercion:
`pd.to_datetime(..., errors="coerce", utc=True)` turns every raw date string
into either a timezone-aware timestamp or `NaT`; we model the resulting
column as `Option Int` (`none` = `NaT`, i.e. absent or unparseable), with the
integer a UTC timestamp in seconds.  The parsing itself is pandas library
code, outside the repository. -/
structure RawRecord where
  messageId : String
  sender : String
  date : Option Int
  inReplyTo : String
  body : Option String
  deriving DecidableEq, Repr

/-- A canonical record after normalization: the `Date` is known valid. -/
structure CRecord where
  messageId : String
  sender : String
  date : Int
  inReplyTo : String
  body : Option String
  deriving DecidableEq, Repr

/-- Conversion of a raw row to a canonical record; `none` exactly when the
row has no valid timestamp (such rows are dropped, mirroring
`self.data = self.data[self.data["Date"].notnull()]`). -/
def toCanon (r : RawRecord) : Option CRecord :=
  r.date.map (fun d =>
    { messageId := r.messageId, sender := r.sender, date := d,
      inReplyTo := r.inReplyTo, body := r.body })

/-- Keep-first deduplication of exact-duplicate rows, mirroring
`DataFrame.drop_duplicates` (which compares entire rows and keeps the first
occurrence). -/
def dedupKF [DecidableEq α] (seen : List α) : List α → List α
  | [] => []
  | x :: xs => if x ∈ seen then dedupKF seen xs else x :: dedupKF (x :: seen) xs

/-- Comparison used by `sort_values(by="Date")`. -/
def dateLe (a b : CRecord) : Bool := a.date ≤ b.date

/-- Insert into a sorted list, before the first element it compares `le` to. -/
def insBy (le : α → α → Bool) (a : α) : List α → List α
  | [] => [a]
  | b :: bs => if le a b then a :: b :: bs else b :: insBy le a bs

/-- Insertion sort with comparison `le` (models `sort_values`). -/
def sortBy (le : α → α → Bool) : List α → List α
  | [] => []
  | a :: as => insBy le a (sortBy le as)

/-- The normalization pipeline of `Archive.__init__` up to (not including)
the final emptiness check: timestamp coercion (already reflected in the
`Option Int` dates), exact-duplicate removal, dropping rows without a valid
timestamp, and the chronological sort.  The bad-timezone scan of the source
can never drop a row here: after coercion with `utc=True` every remaining
timestamp is timezone-aware and comparable. -/
def normalizeCore (input : List RawRecord) : List CRecord :=
  sortBy dateLe ((dedupKF [] input).filterMap toCanon)

/-- Spec-level name for the fatal error on an empty normalized dataset; the
source raises `mailman.MissingDataException` at the same point. -/
inductive NormError where
  | dataIntegrityError
  deriving DecidableEq, Repr

/-- The constructor `Archive.__init__`: produce the Canonical Dataset, failing if it is
empty. -/
def normalize (input : List RawRecord) : Except NormError (List CRecord) :=
  if (normalizeCore input).isEmpty then .error .dataIntegrityError
  else .ok (normalizeCore input)

instance {ε α : Type} [DecidableEq ε] [DecidableEq α] :
    DecidableEq (Except ε α) := fun a b =>
  match a, b with
  | .error e, .error f =>
      if h : e = f then isTrue (by rw [h])
      else isFalse (by intro hh; cases hh; exact h rfl)
  | .error _, .ok _ => isFalse (by intro h; cases h)
  | .ok _, .error _ => isFalse (by intro h; cases h)
  | .ok x, .ok y =>
      if h : x = y then isTrue (by rw [h])
      else isFalse (by intro hh; cases hh; exact h rfl)

/-- The state of the caller's DataFrame after `Archive.__init__` returns.
The constructor aliases the input (`self.data = df`), coerces its `Date`
column in place (already reflected in our post-coercion dates) and runs
`drop_duplicates(inplace=True)` on it; the later steps rebind `self.data`
to fresh objects and no longer touch the input. -/
def inputAfter (input : List RawRecord) : List RawRecord :=
  dedupKF [] input

/-! ## C1, C6, C7: normalization theorems -/

/-- A reference "process time" for the C1 counterexample (2030-01-01 UTC);
the future-dated record below is dated far beyond it. -/
def c1Now : Int := 1893456000

def c1Input : List RawRecord :=
  [ { messageId := "m2", sender := "bob", date := some 100,
      inReplyTo := "None", body := some "x" },
    { messageId := "m2", sender := "bob", date := some 200,
      inReplyTo := "None", body := some "y" },
    { messageId := "m1", sender := "alice", date := some 253402300800,
      inReplyTo := "None", body := none } ]

def c1Canon : List CRecord :=
  [ { messageId := "m2", sender := "bob", date := 100,
      inReplyTo := "None", body := some "x" },
    { messageId := "m2", sender := "bob", date := 200,
      inReplyTo := "None", body := some "y" },
    { messageId := "m1", sender := "alice", date := 253402300800,
      inReplyTo := "None", body := none } ]

/-! ## Activity aggregation (`Archive.compute_activity`)

Timestamps are UTC seconds; `Timestamp.toordinal()` maps a timestamp to its
calendar day, modelled as flooring division by 86400. -/

def dayOf (r : CRecord) : Int := Int.fdiv r.date 86400

/-- The `clean` step: drop messages apparently in the future
(`mdf[mdf["Date"] < datetime.datetime.now(pytz.utc)]`). -/
def cleanData (now : Int) (data : List CRecord) : List CRecord :=
  data.filter (fun r => decide (r.date < now))

/-- Code-point lexicographic order on char lists. -/
def charListLe : List Char → List Char → Bool
  | [], _ => true
  | _ :: _, [] => false
  | a :: as, b :: bs =>
      if a.toNat < b.toNat then true
      else if b.toNat < a.toNat then false
      else charListLe as bs

/-- Lexicographic string order (pandas sorts strings by code point). -/
def strLe (a b : String) : Bool := charListLe a.data b.data

/-- The sender column set of the pivoted table: the distinct senders, in
sorted order (pandas `groupby(...).unstack("From")` sorts its columns). -/
def sendersOf (l : List CRecord) : List String :=
  sortBy strLe (dedupKF [] (l.map (fun r => r.sender)))

/-- Pandas `Series.min` over the ordinal-day column (junk value 0 on empty). -/
def minDay : List CRecord → Int
  | [] => 0
  | r :: rs => (rs.map dayOf).foldr min (dayOf r)

/-- Pandas `Series.max` over the ordinal-day column (junk value 0 on empty). -/
def maxDay : List CRecord → Int
  | [] => 0
  | r :: rs => (rs.map dayOf).foldr max (dayOf r)

/-- Numpy `np.arange(a, b)` over integers: the half-open range `[a, b)`. -/
def intRange (a b : Int) : List Int :=
  (List.range (b - a).toNat).map (fun (i : Nat) => a + i)

/-- The dense day index the activity table is reindexed to:
`np.arange(mdf2["Date"].min(), mdf2["Date"].max())`.  (On an empty cleaned
table the source raises inside numpy; we return the empty index.) -/
def dayIndex (l : List CRecord) : List Int :=
  if l.isEmpty then [] else intRange (minDay l) (maxDay l)

/-- One cell of the pivot table: how many cleaned records a given sender
sent on a given ordinal day (`groupby(["From", "Date"]).size()`, with
`fillna(0)` and `reindex(..., fill_value=0)` making absent cells zero). -/
def cell (l : List CRecord) (s : String) (d : Int) : Nat :=
  l.countP (fun r => decide (r.sender = s ∧ dayOf r = d))

/-- The Activity Matrix: one row per day of the dense index, one column per
sender. -/
structure ActivityMatrix where
  senders : List String
  days : List Int
  cells : List (List Nat)
  deriving DecidableEq, Repr

/-- The aggregator `Archive.compute_activity` (with `clean=True`). -/
def computeActivity (now : Int) (data : List CRecord) : ActivityMatrix :=
  { senders := sendersOf (cleanData now data),
    days := dayIndex (cleanData now data),
    cells := (dayIndex (cleanData now data)).map
      (fun d => (sendersOf (cleanData now data)).map
        (fun s => cell (cleanData now data) s d)) }

/-- Sum of all cells of an Activity Matrix. -/
def matrixSum (m : ActivityMatrix) : Nat :=
  (m.cells.map (fun row => row.sum)).sum

/-! ## C4: the Activity Matrix -/

def c4Data : List CRecord :=
  [ { messageId := "m1", sender := "a", date := 0,
      inReplyTo := "None", body := none },
    { messageId := "m2", sender := "a", date := 172800,
      inReplyTo := "None", body := none } ]

/-! ## C8: entity resolution (`Archive.resolve_entities`)

`resolve_entities` flattens the cached alias mapping
(canonical-entity → list of raw sender names) into parallel `to_replace` /
`value` lists and runs `DataFrame.replace` over the data, which substitutes
in a single simultaneous pass (each cell is replaced at most once per call);
it then clears and recomputes the Activity Matrix. -/

/-- The `to_replace`/`value` pairs accumulated from the alias mapping. -/
def entityPairs (entities : List (String × List String)) :
    List (String × String) :=
  (entities.map (fun e => e.2.map (fun n => (n, e.1)))).flatten

/-- One simultaneous find-and-replace pass on a single sender cell. -/
def applySubst (pairs : List (String × String)) (s : String) : String :=
  match pairs.find? (fun p => p.1 == s) with
  | some p => p.2
  | none => s

/-- One run of `resolve_entities` with a fixed alias mapping: rewrite the
sender column of the Canonical Dataset. -/
def resolveData (entities : List (String × List String))
    (data : List CRecord) : List CRecord :=
  data.map (fun r => { r with sender := applySubst (entityPairs entities) r.sender })

def c8Entities : List (String × List String) := [("b", ["a"]), ("c", ["b"])]

def c8Data : List CRecord :=
  [ { messageId := "m1", sender := "a", date := 0,
      inReplyTo := "None", body := none } ]

/-! ## Thread builder (`Archive.get_threads`)

The `Node` and `Thread` classes come from `bigbang.thread`, which is not
among the sources; their shape is modelled from the spec (§3 Data Model):
a Thread Node wraps a message id, optionally its Message Record (a
placeholder synthesized for an unseen ancestor has none), a `parent`
back-reference and an ordered `children` list (insertion order), and a
Thread is a root node tagged `root_known`.  Nodes live in a creation-order
store and are referenced by index; `Node.add_successor` appends to
`children`. -/

/-- Modelled from the spec: a Thread Node (`bigbang.thread.Node`).
`hasData` records whether the node carries a Message Record (false for a
synthesized placeholder). -/
structure TNode where
  nid : String
  hasData : Bool
  parent : Option Nat
  children : List Nat
  deriving DecidableEq, Repr

/-- The builder state of `Archive.get_threads`: the node store, the
visited map (newest binding first, as assoc list — Python dict assignment
overwrites, so lookup takes the newest), and the thread list as
(root index, `root_known`) pairs. -/
structure TState where
  nodes : List TNode
  visited : List (String × Nat)
  threads : List (Nat × Bool)
  deriving DecidableEq, Repr

/-- Dictionary lookup in the visited map (newest binding wins). -/
def lookupV (visited : List (String × Nat)) (k : String) : Option Nat :=
  (visited.find? (fun p => p.1 == k)).map (fun p => p.2)

/-- Update the element at an index, if present. -/
def updateAt : List α → Nat → (α → α) → List α
  | [], _, _ => []
  | x :: xs, 0, f => f x :: xs
  | x :: xs, n + 1, f => x :: updateAt xs n f

/-- The method `Node.add_successor`: append a child index to a stored node. -/
def addChild (nodes : List TNode) (pidx cidx : Nat) : List TNode :=
  updateAt nodes pidx (fun nd => { nd with children := nd.children ++ [cidx] })

/-- One iteration of the `get_threads` loop over a record. -/
def step (s : TState) (r : CRecord) : TState :=
  if r.inReplyTo == "None" then
    { nodes := s.nodes ++
        [{ nid := r.messageId, hasData := true, parent := none,
           children := [] }],
      visited := (r.messageId, s.nodes.length) :: s.visited,
      threads := s.threads ++ [(s.nodes.length, true)] }
  else
    match lookupV s.visited r.inReplyTo with
    | none =>
        { nodes := s.nodes ++
            [{ nid := r.inReplyTo, hasData := false, parent := none,
               children := [s.nodes.length + 1] },
             { nid := r.messageId, hasData := true,
               parent := some s.nodes.length, children := [] }],
          visited := (r.messageId, s.nodes.length + 1) ::
            (r.inReplyTo, s.nodes.length) :: s.visited,
          threads := s.threads ++ [(s.nodes.length, false)] }
    | some pidx =>
        { nodes := addChild s.nodes pidx s.nodes.length ++
            [{ nid := r.messageId, hasData := true, parent := some pidx,
               children := [] }],
          visited := (r.messageId, s.nodes.length) :: s.visited,
          threads := s.threads }

def initTState : TState := { nodes := [], visited := [], threads := [] }

/-- The builder `Archive.get_threads`: fold the state machine over the time-ordered
Canonical Dataset. -/
def getThreads (data : List CRecord) : TState :=
  data.foldl step initTState

/-! ## C2: the three-case state machine and its scenario -/

def c2Input : List CRecord :=
  [ { messageId := "m1", sender := "a", date := 36000,
      inReplyTo := "None", body := none },
    { messageId := "m2", sender := "b", date := 36300,
      inReplyTo := "m1", body := none },
    { messageId := "m3", sender := "c", date := 36600,
      inReplyTo := "m5", body := none } ]

def c2Result : TState :=
  { nodes :=
      [ { nid := "m1", hasData := true, parent := none, children := [1] },
        { nid := "m2", hasData := true, parent := some 0, children := [] },
        { nid := "m5", hasData := false, parent := none, children := [3] },
        { nid := "m3", hasData := true, parent := some 2, children := [] } ],
    visited := [("m3", 3), ("m5", 2), ("m2", 1), ("m1", 0)],
    threads := [(0, true), (2, false)] }

/-! ## C3: a self-referential reply -/

def c3Rec : CRecord :=
  { messageId := "m1", sender := "a", date := 0,
    inReplyTo := "m1", body := none }

/-! ## C10: visited-map overwrite semantics -/

def c10Input : List CRecord :=
  [ { messageId := "m2", sender := "a", date := 0,
      inReplyTo := "m1", body := none },
    { messageId := "m1", sender := "b", date := 1,
      inReplyTo := "None", body := none },
    { messageId := "m4", sender := "c", date := 2,
      inReplyTo := "m1", body := none } ]

def c10Result : TState :=
  { nodes :=
      [ { nid := "m1", hasData := false, parent := none, children := [1] },
        { nid := "m2", hasData := true, parent := some 0, children := [] },
        { nid := "m1", hasData := true, parent := none, children := [3] },
        { nid := "m4", hasData := true, parent := some 2, children := [] } ],
    visited := [("m4", 3), ("m1", 2), ("m2", 1), ("m1", 0)],
    threads := [(0, false), (2, true)] }

/-! ## C5: the result is a forest covering each record exactly once -/

/-- One parent-traversal step in a builder state: node `i`'s parent is
node `j`. -/
def parentStep (st : TState) (i j : Nat) : Prop :=
  ∃ nd, st.nodes[i]? = some nd ∧ nd.parent = some j

/-- Invariant of the thread-builder state after `count` records: data-node
count, index bounds, a node is parentless exactly if it is a thread root,
and parents point strictly backwards in creation order. -/
def goodState (count : Nat) (st : TState) : Prop :=
  st.nodes.countP (fun nd => nd.hasData) = count ∧
  (∀ p ∈ st.visited, p.2 < st.nodes.length) ∧
  (∀ t ∈ st.threads, t.1 < st.nodes.length) ∧
  (∀ (i : Nat) (nd : TNode), st.nodes[i]? = some nd →
    (nd.parent = none ↔ ∃ b, (i, b) ∈ st.threads)) ∧
  (∀ (i : Nat) (nd : TNode) (j : Nat),
    st.nodes[i]? = some nd → nd.parent = some j → j < i)

def c5Input : List CRecord :=
  [ { messageId := "m1", sender := "a", date := 0,
      inReplyTo := "None", body := none },
    { messageId := "m2", sender := "b", date := 1,
      inReplyTo := "m1", body := none } ]

/-! ## C9: footer detection (`find_footer`)

`utils.get_common_head` is not among the sources; it is modelled from the
spec below.  Everything else mirrors `find_footer` directly: reverse each
body, sort (old pandas `Series.order()`, missing values last), walk
adjacent pairs tallying the cleaned common head, then greedily fold longer,
rarer candidates into shorter, more frequent substrings. -/

def strRev (s : String) : String := ⟨s.data.reverse⟩

/-- Pandas `Series.order()` on the reversed bodies: non-null values sorted
ascending, null entries kept at the end. -/
def orderBodies (l : List (Option String)) : List (Option String) :=
  ((sortBy strLe (l.filterMap (fun x => x))).map (fun s => some s)) ++
    List.replicate (l.countP (fun x => x.isNone)) none

def lcpChars : List Char → List Char → List Char
  | a :: as, b :: bs => if a = b then a :: lcpChars as bs else []
  | _, _ => []

/-- Modelled from the spec: `utils.get_common_head(b, last, delimiter="\n")`
computes "the longest common prefix between each adjacent pair". -/
def getCommonHead (a b : String) : String := ⟨lcpChars a.data b.data⟩

def isWs (c : Char) : Bool :=
  c == ' ' || c == '\n' || c == '\t' || c == '\r' ||
    c == '\x0b' || c == '\x0c'

def dropWs : List Char → List Char
  | [] => []
  | c :: cs => if isWs c then dropWs cs else c :: cs

/-- The helper `clean_footer`: strip surrounding whitespace (`str.strip()`). -/
def cleanFooter (s : String) : String :=
  ⟨(dropWs ((dropWs s.data).reverse)).reverse⟩

/-- Python-dict tally: increment an existing key in place, else append. -/
def bump (counts : List (String × Nat)) (k : String) : List (String × Nat) :=
  if counts.any (fun p => p.1 == k) then
    counts.map (fun p => if p.1 == k then (p.1, p.2 + 1) else p)
  else counts ++ [(k, 1)]

/-- The adjacent-pair walk of `find_footer`: `last` starts as `None`; a
null body is skipped; otherwise the cleaned, re-reversed common head of
the current and previous body is tallied. -/
def footerWalk (last : Option String) (counts : List (String × Nat)) :
    List (Option String) → List (String × Nat)
  | [] => counts
  | b :: rest =>
      match last with
      | none => footerWalk b counts rest
      | some lastS =>
          match b with
          | none => footerWalk (some lastS) counts rest
          | some bS =>
              footerWalk (some bS)
                (bump counts (cleanFooter (strRev (getCommonHead bS lastS))))
                rest

def lookupCount (counts : List (String × Nat)) (k : String) : Option Nat :=
  (counts.find? (fun p => p.1 == k)).map (fun p => p.2)

def eraseKey (counts : List (String × Nat)) (k : String) :
    List (String × Nat) :=
  counts.filter (fun p => !(p.1 == k))

def setCount (counts : List (String × Nat)) (k : String) (v : Nat) :
    List (String × Nat) :=
  counts.map (fun p => if p.1 == k then (p.1, v) else p)

/-- Tests that `a` is an initial segment of `b`. -/
def startsWith : List Char → List Char → Bool
  | [], _ => true
  | _ :: _, [] => false
  | a :: as, b :: bs => a == b && startsWith as bs

/-- Tests that `sub` occurs as a contiguous substring (Python's `in` on strings). -/
def occursIn (sub : List Char) : List Char → Bool
  | [] => sub.isEmpty
  | c :: cs => startsWith sub (c :: cs) || occursIn sub cs

/-- Comparator giving Python's `sorted([(v, k) ...], reverse=True)` when
used with `sortBy`: descending tuple order on (count, key). -/
def tupleDesc (a b : Nat × String) : Bool :=
  if a.1 = b.1 then decide (b.2 ≤ a.2) else decide (b.1 < a.1)

/-- The inner merging loop over one snapshot of `counts.items()`: fold a
longer, strictly rarer candidate containing `foot1` into `foot1`'s count
and delete it.  (If `foot1` itself was deleted by an earlier outer pass
the source would raise `KeyError`; that unreachable-in-our-statements
branch is skipped here.) -/
def mergeInner (foot1 : String) (n : Nat) (counts : List (String × Nat)) :
    List (String × Nat) → List (String × Nat)
  | [] => counts
  | (foot2, m) :: rest =>
      if m < n ∧ occursIn foot1.data foot2.data = true ∧ 0 < foot1.length then
        match lookupCount counts foot1, lookupCount counts foot2 with
        | some v1, some v2 =>
            mergeInner foot1 n (eraseKey (setCount counts foot1 (v1 + v2)) foot2)
              rest
        | _, _ => mergeInner foot1 n counts rest
      else mergeInner foot1 n counts rest

/-- The outer merging loop over the descending-sorted initial snapshot. -/
def mergeOuter (counts : List (String × Nat)) :
    List (Nat × String) → List (String × Nat)
  | [] => counts
  | (n, foot1) :: rest => mergeOuter (mergeInner foot1 n counts counts) rest

/-- The detector `find_footer`: top-`number` footer candidates by merged frequency,
descending. -/
def findFooter (messages : List (Option String)) (number : Nat) :
    List (Nat × String) :=
  let srb := orderBodies (messages.map (Option.map strRev))
  let counts := footerWalk none [] srb
  let merged := mergeOuter counts
    (sortBy tupleDesc (counts.map (fun p => (p.2, p.1))))
  (sortBy tupleDesc (merged.map (fun p => (p.2, p.1)))).take number

/-! ## Theorems -/

/-! ## Sorting and deduplication lemmas -/

theorem mem_insBy {le : α → α → Bool} {a x : α} {l : List α} :
    x ∈ insBy le a l ↔ x = a ∨ x ∈ l := by
  induction l with
  | nil => simp [insBy]
  | cons b bs ih =>
      simp only [insBy]
      split
      · simp
      · simp [ih]; tauto

theorem perm_insBy (le : α → α → Bool) (a : α) (l : List α) :
    (insBy le a l).Perm (a :: l) := by
  induction l with
  | nil => simp [insBy]
  | cons b bs ih =>
      simp only [insBy]
      split
      · exact List.Perm.refl _
      · exact (List.Perm.cons b ih).trans (List.Perm.swap a b bs)

theorem perm_sortBy (le : α → α → Bool) (l : List α) :
    (sortBy le l).Perm l := by
  induction l with
  | nil => exact List.Perm.refl _
  | cons a as ih =>
      exact (perm_insBy le a (sortBy le as)).trans (List.Perm.cons a ih)

theorem pairwise_insBy {le : α → α → Bool}
    (htot : ∀ a b, le a b = false → le b a = true)
    (htr : ∀ a b c, le a b = true → le b c = true → le a c = true)
    {a : α} {l : List α} (hl : l.Pairwise (fun x y => le x y = true)) :
    (insBy le a l).Pairwise (fun x y => le x y = true) := by
  induction l with
  | nil => simp [insBy]
  | cons b bs ih =>
      simp only [insBy]
      rcases List.pairwise_cons.mp hl with ⟨hb, hbs⟩
      by_cases hab : le a b = true
      · rw [if_pos hab]
        refine List.pairwise_cons.mpr ⟨?_, hl⟩
        intro y hy
        rcases List.mem_cons.mp hy with rfl | hy
        · exact hab
        · exact htr a b y hab (hb y hy)
      · rw [if_neg hab]
        refine List.pairwise_cons.mpr ⟨?_, ih hbs⟩
        intro y hy
        rcases mem_insBy.mp hy with h | hy
        · rw [h]
          exact htot a b (by simpa using hab)
        · exact hb y hy

theorem pairwise_sortBy {le : α → α → Bool}
    (htot : ∀ a b, le a b = false → le b a = true)
    (htr : ∀ a b c, le a b = true → le b c = true → le a c = true)
    (l : List α) :
    (sortBy le l).Pairwise (fun x y => le x y = true) := by
  induction l with
  | nil => simp [sortBy]
  | cons a as ih => exact pairwise_insBy htot htr ih

theorem mem_dedupKF [DecidableEq α] :
    ∀ (l seen : List α) (x : α), x ∈ dedupKF seen l → x ∈ l := by
  intro l
  induction l with
  | nil => intro seen x hx; simp [dedupKF] at hx
  | cons a as ih =>
      intro seen x hx
      simp only [dedupKF] at hx
      split at hx
      · exact List.mem_cons_of_mem _ (ih seen x hx)
      · rcases List.mem_cons.mp hx with rfl | hx
        · exact List.mem_cons_self _ _
        · exact List.mem_cons_of_mem _ (ih (a :: seen) x hx)

theorem not_seen_dedupKF [DecidableEq α] :
    ∀ (l seen : List α) (x : α), x ∈ dedupKF seen l → x ∉ seen := by
  intro l
  induction l with
  | nil => intro seen x hx; simp [dedupKF] at hx
  | cons a as ih =>
      intro seen x hx
      simp only [dedupKF] at hx
      split at hx
      · exact ih seen x hx
      · rcases List.mem_cons.mp hx with rfl | hx
        · assumption
        · intro hs
          exact ih (a :: seen) x hx (List.mem_cons_of_mem _ hs)

theorem nodup_dedupKF [DecidableEq α] :
    ∀ (l seen : List α), (dedupKF seen l).Nodup := by
  intro l
  induction l with
  | nil => intro seen; simp [dedupKF]
  | cons a as ih =>
      intro seen
      simp only [dedupKF]
      split
      · exact ih seen
      · refine List.nodup_cons.mpr ⟨?_, ih (a :: seen)⟩
        intro ha
        exact not_seen_dedupKF as (a :: seen) a ha (List.mem_cons_self _ _)

theorem toCanon_eq {a : RawRecord} {b : CRecord} (h : toCanon a = some b) :
    a = { messageId := b.messageId, sender := b.sender, date := some b.date,
          inReplyTo := b.inReplyTo, body := b.body } := by
  rcases a with ⟨i, s, d, p, o⟩
  cases d with
  | none => simp [toCanon] at h
  | some v =>
      simp only [toCanon, Option.map_some'] at h
      rw [Option.some.injEq] at h
      subst h
      rfl

theorem toCanon_inj :
    ∀ a a' : RawRecord, ∀ b : CRecord,
      b ∈ toCanon a → b ∈ toCanon a' → a = a' := by
  intro a a' b hb hb'
  rw [Option.mem_def] at hb hb'
  rw [toCanon_eq hb, toCanon_eq hb']

/-- C1 counterexample: normalization keeps a record dated in the year 9999
(far after process time) and keeps two distinct records sharing the
`Message-ID` "m2" (only exact duplicates are dropped), so the claimed
past-or-present-timestamp and unique-`id` invariants both fail. -/
theorem c1_counterexample :
    normalize c1Input = .ok c1Canon ∧
    ¬ ((∀ r ∈ c1Canon, r.date ≤ c1Now) ∧
       c1Canon.Pairwise (fun a b => a.messageId ≠ b.messageId)) := by
  decide

/-- C1 amended: every record of the Canonical Dataset is an input row with
its (non-null) parsed timestamp, the dataset is sorted ascending by
timestamp, is nonempty, and contains no two identical records. -/
theorem c1_amended (input : List RawRecord) (l : List CRecord)
    (h : normalize input = .ok l) :
    l.Pairwise (fun a b => a.date ≤ b.date) ∧ l.Nodup ∧ l ≠ [] ∧
    ∀ r ∈ l, ∃ a ∈ input, toCanon a = some r := by
  have hl : l = normalizeCore input ∧ (normalizeCore input).isEmpty = false := by
    unfold normalize at h
    split at h
    · cases h
    · rename_i hne
      exact ⟨(Except.ok.inj h).symm, by simpa using hne⟩
  obtain ⟨rfl, hne⟩ := hl
  refine ⟨?_, ?_, ?_, ?_⟩
  · have := @pairwise_sortBy CRecord dateLe
      (fun a b hab => by
        simp only [dateLe, decide_eq_false_iff_not, Int.not_le] at hab
        simpa [dateLe] using le_of_lt hab)
      (fun a b c hab hbc => by
        simp only [dateLe, decide_eq_true_eq] at hab hbc
        simpa [dateLe] using le_trans hab hbc)
      ((dedupKF [] input).filterMap toCanon)
    exact this.imp (fun h => by simpa [dateLe] using h)
  · exact ((perm_sortBy _ _).nodup_iff).mpr
      (List.Nodup.filterMap toCanon_inj (nodup_dedupKF input []))
  · simpa using hne
  · intro r hr
    have hr' : r ∈ (dedupKF [] input).filterMap toCanon :=
      (perm_sortBy _ _).mem_iff.mp hr
    rcases List.mem_filterMap.mp hr' with ⟨a, ha, hac⟩
    exact ⟨a, mem_dedupKF input [] a ha, hac⟩

/-- Witness instantiating `c1_amended` on a concrete one-row input. -/
theorem c1_witness :
    ([ { messageId := "m1", sender := "alice", date := (7 : Int),
         inReplyTo := "None", body := none } ] :
        List CRecord).Pairwise (fun a b => a.date ≤ b.date) ∧
    ([ { messageId := "m1", sender := "alice", date := (7 : Int),
         inReplyTo := "None", body := none } ] : List CRecord).Nodup ∧
    ([ { messageId := "m1", sender := "alice", date := (7 : Int),
         inReplyTo := "None", body := none } ] : List CRecord) ≠ [] ∧
    ∀ r ∈ ([ { messageId := "m1", sender := "alice", date := (7 : Int),
               inReplyTo := "None", body := none } ] : List CRecord),
      ∃ a ∈ [ { messageId := "m1", sender := "alice", date := some 7,
                inReplyTo := "None", body := none } ], toCanon a = some r :=
  c1_amended _ _ (by decide)

/-- C6: whenever the normalization pipeline produces an empty dataset,
`Archive` construction fails with the fatal empty-dataset error (the
spec's `DataIntegrityError`, raised as `mailman.MissingDataException` in
the source) and never returns an empty Canonical Dataset. -/
theorem c6_empty_fatal (input : List RawRecord) :
    (normalizeCore input = [] →
      normalize input = .error .dataIntegrityError) ∧
    normalize input ≠ .ok [] := by
  constructor
  · intro h
    simp [normalize, h]
  · intro h
    unfold normalize at h
    split at h
    · cases h
    · rename_i hne
      have hc : normalizeCore input = [] := Except.ok.inj h
      rw [hc] at hne
      simp at hne

/-- Witness: a single undated row normalizes to the empty dataset and
construction fails. -/
theorem c6_witness :
    normalize [ { messageId := "m1", sender := "alice", date := none,
                  inReplyTo := "None", body := none } ] =
      .error .dataIntegrityError :=
  (c6_empty_fatal _).1 (by decide)

/-- C7 (code bug evidence): the constructor mutates the caller's DataFrame.
On an input of two identical rows construction succeeds, yet the input
object afterwards has lost its duplicate row (`drop_duplicates(inplace=True)`
ran on the aliased, uncopied input), so the input is not left unchanged. -/
theorem c7_mutation :
    inputAfter
        [ { messageId := "m1", sender := "alice", date := some 5,
            inReplyTo := "None", body := none },
          { messageId := "m1", sender := "alice", date := some 5,
            inReplyTo := "None", body := none } ] ≠
      [ { messageId := "m1", sender := "alice", date := some 5,
          inReplyTo := "None", body := none },
        { messageId := "m1", sender := "alice", date := some 5,
          inReplyTo := "None", body := none } ] ∧
    normalize
        [ { messageId := "m1", sender := "alice", date := some 5,
            inReplyTo := "None", body := none },
          { messageId := "m1", sender := "alice", date := some 5,
            inReplyTo := "None", body := none } ] =
      .ok [ { messageId := "m1", sender := "alice", date := 5,
              inReplyTo := "None", body := none } ] := by
  decide

/-! ### Counting lemmas -/

theorem sum_map_add {κ : Type} (S : List κ) (f g : κ → Nat) :
    (S.map (fun s => f s + g s)).sum = (S.map f).sum + (S.map g).sum := by
  induction S with
  | nil => simp
  | cons a as ih => simp only [List.map_cons, List.sum_cons, ih]; omega

theorem sum_map_ind {κ : Type} [DecidableEq κ] (S : List κ) (x : κ)
    (hS : S.Nodup) :
    (S.map (fun s => if x = s then 1 else 0)).sum
      = if x ∈ S then 1 else 0 := by
  induction S with
  | nil => simp
  | cons a as ih =>
      rcases List.nodup_cons.mp hS with ⟨ha, has⟩
      simp only [List.map_cons, List.sum_cons, ih has, List.mem_cons]
      by_cases hxa : x = a
      · subst hxa
        simp [ha]
      · simp [hxa, Ne.symm hxa]

theorem sum_map_ind_and {κ : Type} [DecidableEq κ] (S : List κ) (x : κ)
    (hS : S.Nodup) (c : Prop) [Decidable c] :
    (S.map (fun s => if x = s ∧ c then 1 else 0)).sum
      = if x ∈ S ∧ c then 1 else 0 := by
  by_cases hc : c
  · simpa [hc] using sum_map_ind S x hS
  · simp [hc]

theorem mem_of_dedupKF [DecidableEq α] :
    ∀ (l seen : List α) (x : α), x ∈ l → x ∈ seen ∨ x ∈ dedupKF seen l := by
  intro l
  induction l with
  | nil => intro seen x hx; cases hx
  | cons a as ih =>
      intro seen x hx
      simp only [dedupKF]
      rcases List.mem_cons.mp hx with rfl | hx
      · by_cases ha : x ∈ seen
        · simp [ha]
        · simp [ha]
      · by_cases ha : a ∈ seen
        · rw [if_pos ha]
          exact ih seen x hx
        · rw [if_neg ha]
          rcases ih (a :: seen) x hx with hs | hd
          · rcases List.mem_cons.mp hs with rfl | hs
            · exact Or.inr (List.mem_cons_self _ _)
            · exact Or.inl hs
          · exact Or.inr (List.mem_cons_of_mem _ hd)

theorem mem_sendersOf (l : List CRecord) :
    ∀ r ∈ l, r.sender ∈ sendersOf l := by
  intro r hr
  have h1 : r.sender ∈ l.map (fun r => r.sender) :=
    List.mem_map.mpr ⟨r, hr, rfl⟩
  have h2 : r.sender ∈ dedupKF [] (l.map (fun r => r.sender)) := by
    rcases mem_of_dedupKF (l.map (fun r => r.sender)) [] r.sender h1 with h | h
    · cases h
    · exact h
  exact (perm_sortBy strLe _).mem_iff.mpr h2

theorem nodup_sendersOf (l : List CRecord) : (sendersOf l).Nodup :=
  ((perm_sortBy strLe _).nodup_iff).mpr (nodup_dedupKF _ [])

theorem col_sum (S : List String) (hS : S.Nodup) (d : Int) :
    ∀ l : List CRecord, (∀ r ∈ l, r.sender ∈ S) →
      (S.map (fun s => cell l s d)).sum
        = l.countP (fun r => decide (dayOf r = d)) := by
  intro l
  induction l with
  | nil =>
      intro _
      simp [cell]
  | cons r l ih =>
      intro hmem
      have hr : r.sender ∈ S := hmem r (List.mem_cons_self _ _)
      have ihl := ih (fun x hx => hmem x (List.mem_cons_of_mem _ hx))
      have hcell : ∀ s, cell (r :: l) s d
          = cell l s d + if r.sender = s ∧ dayOf r = d then 1 else 0 := by
        intro s
        simp [cell, List.countP_cons]
      simp only [hcell, sum_map_add, ihl,
        sum_map_ind_and S r.sender hS (dayOf r = d), List.countP_cons]
      simp [hr]

theorem day_sum (D : List Int) (hD : D.Nodup) :
    ∀ l : List CRecord,
      (D.map (fun d => l.countP (fun r => decide (dayOf r = d)))).sum
        = l.countP (fun r => decide (dayOf r ∈ D)) := by
  intro l
  induction l with
  | nil => simp
  | cons r l ih =>
      have hstep : ∀ d : Int,
          (r :: l).countP (fun r => decide (dayOf r = d))
            = l.countP (fun r => decide (dayOf r = d))
              + if dayOf r = d then 1 else 0 := by
        intro d
        simp [List.countP_cons]
      simp only [hstep, sum_map_add, ih,
        sum_map_ind D (dayOf r) hD, List.countP_cons]
      simp

theorem foldr_min_le (ds : List Int) (d0 : Int) :
    ds.foldr min d0 ≤ d0 ∧ ∀ x ∈ ds, ds.foldr min d0 ≤ x := by
  induction ds with
  | nil => simp
  | cons d ds ih =>
      simp only [List.foldr_cons]
      refine ⟨le_trans (min_le_right _ _) ih.1, ?_⟩
      intro x hx
      rcases List.mem_cons.mp hx with rfl | hx
      · exact min_le_left _ _
      · exact le_trans (min_le_right _ _) (ih.2 x hx)

theorem foldr_le_max (ds : List Int) (d0 : Int) :
    d0 ≤ ds.foldr max d0 ∧ ∀ x ∈ ds, x ≤ ds.foldr max d0 := by
  induction ds with
  | nil => simp
  | cons d ds ih =>
      simp only [List.foldr_cons]
      refine ⟨le_trans ih.1 (le_max_right _ _), ?_⟩
      intro x hx
      rcases List.mem_cons.mp hx with rfl | hx
      · exact le_max_left _ _
      · exact le_trans (ih.2 x hx) (le_max_right _ _)

theorem minDay_le {l : List CRecord} : ∀ r ∈ l, minDay l ≤ dayOf r := by
  intro r hr
  cases l with
  | nil => cases hr
  | cons a as =>
      rcases List.mem_cons.mp hr with rfl | hr
      · exact (foldr_min_le (as.map dayOf) (dayOf r)).1
      · exact (foldr_min_le (as.map dayOf) (dayOf a)).2 (dayOf r)
          (List.mem_map.mpr ⟨r, hr, rfl⟩)

theorem le_maxDay {l : List CRecord} : ∀ r ∈ l, dayOf r ≤ maxDay l := by
  intro r hr
  cases l with
  | nil => cases hr
  | cons a as =>
      rcases List.mem_cons.mp hr with rfl | hr
      · exact (foldr_le_max (as.map dayOf) (dayOf r)).1
      · exact (foldr_le_max (as.map dayOf) (dayOf a)).2 (dayOf r)
          (List.mem_map.mpr ⟨r, hr, rfl⟩)

theorem mem_intRange {a b d : Int} : d ∈ intRange a b ↔ a ≤ d ∧ d < b := by
  unfold intRange
  constructor
  · intro h
    rcases List.mem_map.mp h with ⟨i, hi, hd⟩
    rw [List.mem_range] at hi
    omega
  · rintro ⟨h1, h2⟩
    refine List.mem_map.mpr ⟨(d - a).toNat, ?_, ?_⟩
    · rw [List.mem_range]; omega
    · omega

theorem nodup_intRange (a b : Int) : (intRange a b).Nodup := by
  unfold intRange
  apply List.Nodup.map
  · intro i j h
    simp only at h
    omega
  · exact List.nodup_range _

theorem nodup_dayIndex (l : List CRecord) : (dayIndex l).Nodup := by
  unfold dayIndex
  split
  · exact List.nodup_nil
  · exact nodup_intRange _ _

/-- C4 counterexample, at process time `now = 172800` (= day 2):
the record dated exactly `now` is not strictly after `now` yet is excluded
(the source filters with `<`), and `np.arange(min_day, max_day)` drops the
latest observed day, so the day index is empty, every cell is gone, and the
cells sum to 0 while 2 records have timestamp ≤ now. -/
theorem c4_counterexample :
    computeActivity 172800 c4Data =
      { senders := ["a"], days := [], cells := [] } ∧
    matrixSum (computeActivity 172800 c4Data) = 0 ∧
    c4Data.countP (fun r => decide (r.date ≤ 172800)) = 2 ∧
    cleanData 172800 c4Data =
      [ { messageId := "m1", sender := "a", date := 0,
          inReplyTo := "None", body := none } ] := by
  decide

/-- C4 amended: the matrix is built from exactly the records with timestamp
strictly before `now`; its day index is the half-open dense range
`[min_day, max_day)` over the kept records; and the cells sum to the number
of kept records whose ordinal day is strictly before the latest observed
day (messages of the latest day are dropped by the half-open reindex). -/
theorem c4_amended (now : Int) (data : List CRecord) :
    (∀ r, r ∈ cleanData now data ↔ r ∈ data ∧ r.date < now) ∧
    (∀ d, d ∈ (computeActivity now data).days ↔
      cleanData now data ≠ [] ∧ minDay (cleanData now data) ≤ d ∧
        d < maxDay (cleanData now data)) ∧
    matrixSum (computeActivity now data)
      = (cleanData now data).countP
          (fun r => decide (dayOf r < maxDay (cleanData now data))) := by
  refine ⟨?_, ?_, ?_⟩
  · intro r
    simp [cleanData, List.mem_filter]
  · intro d
    show d ∈ dayIndex (cleanData now data) ↔ _
    unfold dayIndex
    split
    · rename_i he
      simp only [List.isEmpty_iff] at he
      simp [he]
    · rename_i he
      simp only [List.isEmpty_iff] at he
      simp [he, mem_intRange]
  · have hrw : matrixSum (computeActivity now data)
        = ((dayIndex (cleanData now data)).map
            (fun d => ((sendersOf (cleanData now data)).map
              (fun s => cell (cleanData now data) s d)).sum)).sum := by
      unfold matrixSum computeActivity
      rw [List.map_map]
      rfl
    rw [hrw]
    have hcol : ∀ d : Int,
        ((sendersOf (cleanData now data)).map
          (fun s => cell (cleanData now data) s d)).sum
        = (cleanData now data).countP (fun r => decide (dayOf r = d)) :=
      fun d => col_sum _ (nodup_sendersOf _) d _ (mem_sendersOf _)
    simp only [hcol]
    rw [day_sum _ (nodup_dayIndex _) _]
    cases hl : cleanData now data with
    | nil => simp
    | cons a as =>
        apply List.countP_congr
        intro r hr
        have hmin : minDay (a :: as) ≤ dayOf r := minDay_le r hr
        have hidx : dayIndex (a :: as)
            = intRange (minDay (a :: as)) (maxDay (a :: as)) := by
          simp [dayIndex]
        simp only [decide_eq_true_eq, hidx, mem_intRange]
        omega

/-- C8 counterexample: with the chained alias mapping `b ↦ [a]`, `c ↦ [b]`
a sender "a" becomes "b" after one run and "c" after two, so the rebuilt
Activity Matrices differ. -/
theorem c8_counterexample :
    computeActivity 86400 (resolveData c8Entities (resolveData c8Entities c8Data))
      ≠ computeActivity 86400 (resolveData c8Entities c8Data) := by
  decide

/-- C8 amended: whenever every replacement value of the mapping is a fixed
point of the substitution (no canonical identity is itself listed as an
alias of a different entity), running entity resolution twice with that
mapping yields the same Activity Matrix as running it once. -/
theorem c8_amended (entities : List (String × List String))
    (data : List CRecord) (now : Int)
    (h : ∀ p ∈ entityPairs entities,
      applySubst (entityPairs entities) p.2 = p.2) :
    computeActivity now (resolveData entities (resolveData entities data))
      = computeActivity now (resolveData entities data) := by
  have hsub : ∀ s, applySubst (entityPairs entities)
      (applySubst (entityPairs entities) s)
      = applySubst (entityPairs entities) s := by
    intro s
    cases hf : (entityPairs entities).find? (fun p => p.1 == s) with
    | none =>
        have h1 : applySubst (entityPairs entities) s = s := by
          unfold applySubst
          rw [hf]
        rw [h1]
        exact h1
    | some p =>
        have h1 : applySubst (entityPairs entities) s = p.2 := by
          unfold applySubst
          rw [hf]
        rw [h1]
        exact h p (List.mem_of_find?_eq_some hf)
  have hdata : resolveData entities (resolveData entities data)
      = resolveData entities data := by
    unfold resolveData
    rw [List.map_map]
    apply List.map_congr_left
    intro r _
    simp only [Function.comp]
    rw [hsub r.sender]
  rw [hdata]

/-- Witness for the amended C8 theorem on a one-entity mapping. -/
theorem c8_witness :
    computeActivity 86400
        (resolveData [("b", ["a"])] (resolveData [("b", ["a"])] c8Data))
      = computeActivity 86400 (resolveData [("b", ["a"])] c8Data) :=
  c8_amended [("b", ["a"])] c8Data 86400 (by decide)

theorem updateAt_length :
    ∀ (l : List α) (i : Nat) (f : α → α), (updateAt l i f).length = l.length := by
  intro l
  induction l with
  | nil => intro i f; rfl
  | cons x xs ih =>
      intro i f
      cases i with
      | zero => simp [updateAt]
      | succ n => simp [updateAt, ih n f]

theorem updateAt_getElem? :
    ∀ (l : List α) (i : Nat) (f : α → α) (j : Nat),
      (updateAt l i f)[j]? = if i = j then (l[j]?).map f else l[j]? := by
  intro l
  induction l with
  | nil => intro i f j; simp [updateAt]
  | cons x xs ih =>
      intro i f j
      cases i with
      | zero =>
          cases j with
          | zero => simp [updateAt]
          | succ m => simp [updateAt]
      | succ n =>
          cases j with
          | zero => simp [updateAt]
          | succ m => simpa [updateAt] using ih n f m

theorem getElem?_append_lt {l l' : List α} {i : Nat} (h : i < l.length) :
    (l ++ l')[i]? = l[i]? := by
  rw [List.getElem?_append, if_pos h]

theorem addChild_length (nodes : List TNode) (pidx cidx : Nat) :
    (addChild nodes pidx cidx).length = nodes.length :=
  updateAt_length nodes pidx _

/-- C2: the loop body follows the three-case state machine (sentinel root /
unseen reference placeholder / attach to visited node), and on the
scenario A(m1, None), B(m2, m1), C(m3, m5) it produces exactly two
threads: one rooted at the observed "m1" (`root_known = true`) with single
child "m2", and one rooted at the placeholder "m5" (`root_known = false`)
with single child "m3". -/
theorem c2_state_machine :
    (∀ (s : TState) (r : CRecord), r.inReplyTo = "None" →
      step s r =
        { nodes := s.nodes ++
            [{ nid := r.messageId, hasData := true, parent := none,
               children := [] }],
          visited := (r.messageId, s.nodes.length) :: s.visited,
          threads := s.threads ++ [(s.nodes.length, true)] }) ∧
    (∀ (s : TState) (r : CRecord), r.inReplyTo ≠ "None" →
      lookupV s.visited r.inReplyTo = none →
      step s r =
        { nodes := s.nodes ++
            [{ nid := r.inReplyTo, hasData := false, parent := none,
               children := [s.nodes.length + 1] },
             { nid := r.messageId, hasData := true,
               parent := some s.nodes.length, children := [] }],
          visited := (r.messageId, s.nodes.length + 1) ::
            (r.inReplyTo, s.nodes.length) :: s.visited,
          threads := s.threads ++ [(s.nodes.length, false)] }) ∧
    (∀ (s : TState) (r : CRecord) (pidx : Nat), r.inReplyTo ≠ "None" →
      lookupV s.visited r.inReplyTo = some pidx →
      step s r =
        { nodes := addChild s.nodes pidx s.nodes.length ++
            [{ nid := r.messageId, hasData := true, parent := some pidx,
               children := [] }],
          visited := (r.messageId, s.nodes.length) :: s.visited,
          threads := s.threads }) ∧
    getThreads c2Input = c2Result := by
  refine ⟨?_, ?_, ?_, by decide⟩
  · intro s r h
    simp [step, h]
  · intro s r h hl
    rw [step, if_neg (by simpa using h), hl]
  · intro s r pidx h hl
    rw [step, if_neg (by simpa using h), hl]

/-- Witness instantiating each conditional case of `c2_state_machine` at
the start state and a concrete record. -/
theorem c2_witness :
    step initTState
        { messageId := "m1", sender := "a", date := 0,
          inReplyTo := "None", body := none } =
      { nodes := [{ nid := "m1", hasData := true, parent := none,
                    children := [] }],
        visited := [("m1", 0)], threads := [(0, true)] } ∧
    step initTState
        { messageId := "m2", sender := "a", date := 0,
          inReplyTo := "m9", body := none } =
      { nodes := [{ nid := "m9", hasData := false, parent := none,
                    children := [1] },
                  { nid := "m2", hasData := true, parent := some 0,
                    children := [] }],
        visited := [("m2", 1), ("m9", 0)], threads := [(0, false)] } ∧
    step { nodes := [{ nid := "m1", hasData := true, parent := none,
                       children := [] }],
           visited := [("m1", 0)], threads := [(0, true)] }
        { messageId := "m3", sender := "a", date := 0,
          inReplyTo := "m1", body := none } =
      { nodes := [{ nid := "m1", hasData := true, parent := none,
                    children := [1] },
                  { nid := "m3", hasData := true, parent := some 0,
                    children := [] }],
        visited := [("m3", 1), ("m1", 0)], threads := [(0, true)] } := by
  refine ⟨c2_state_machine.1 _ _ rfl, ?_, ?_⟩
  · have h := c2_state_machine.2.1 initTState
      { messageId := "m2", sender := "a", date := 0,
        inReplyTo := "m9", body := none } (by decide) (by decide)
    simpa using h
  · have h := c2_state_machine.2.2.1
      { nodes := [{ nid := "m1", hasData := true, parent := none,
                    children := [] }],
        visited := [("m1", 0)], threads := [(0, true)] }
      { messageId := "m3", sender := "a", date := 0,
        inReplyTo := "m1", body := none } 0 (by decide) (by decide)
    simpa [addChild, updateAt] using h

/-- C3 counterexample: a record whose `in_reply_to` equals its own `id`
raises nothing (there is no `MalformedReferenceError` anywhere in the
source) and is not excluded: thread building silently takes the
unseen-reference branch, synthesizes a placeholder also named "m1", and the
record's own node (with its data) ends up in the forest as the
placeholder's child. -/
theorem c3_counterexample :
    getThreads [c3Rec] =
      { nodes :=
          [ { nid := "m1", hasData := false, parent := none,
              children := [1] },
            { nid := "m1", hasData := true, parent := some 0,
              children := [] } ],
        visited := [("m1", 1), ("m1", 0)],
        threads := [(0, false)] } ∧
    ∃ nd ∈ (getThreads [c3Rec]).nodes, nd.hasData = true ∧ nd.nid = "m1" := by
  decide

/-- C3 amended: a record replying to its own unvisited `id` is silently
accepted through the unseen-reference branch: a distinct placeholder node
carrying the same id becomes the root of a `root_known = false` thread, the
record's node is attached as its child (its parent is the placeholder, not
itself, so no self-loop arises), and the visited map ends up binding the id
to the record's node rather than the placeholder. -/
theorem c3_amended (s : TState) (r : CRecord)
    (hself : r.inReplyTo = r.messageId) (hsent : r.inReplyTo ≠ "None")
    (hnew : lookupV s.visited r.inReplyTo = none) :
    step s r =
      { nodes := s.nodes ++
          [{ nid := r.messageId, hasData := false, parent := none,
             children := [s.nodes.length + 1] },
           { nid := r.messageId, hasData := true,
             parent := some s.nodes.length, children := [] }],
        visited := (r.messageId, s.nodes.length + 1) ::
          (r.messageId, s.nodes.length) :: s.visited,
        threads := s.threads ++ [(s.nodes.length, false)] } ∧
    lookupV (step s r).visited r.messageId = some (s.nodes.length + 1) := by
  have hstep : step s r =
      { nodes := s.nodes ++
          [{ nid := r.inReplyTo, hasData := false, parent := none,
             children := [s.nodes.length + 1] },
           { nid := r.messageId, hasData := true,
             parent := some s.nodes.length, children := [] }],
        visited := (r.messageId, s.nodes.length + 1) ::
          (r.inReplyTo, s.nodes.length) :: s.visited,
        threads := s.threads ++ [(s.nodes.length, false)] } := by
    rw [step, if_neg (by simpa using hsent), hnew]
  rw [hstep, hself]
  refine ⟨rfl, ?_⟩
  simp [lookupV, List.find?_cons]

/-- Witness running `c3_amended` on the concrete self-reply record. -/
theorem c3_witness :
    step initTState c3Rec =
      { nodes :=
          [ { nid := "m1", hasData := false, parent := none,
              children := [1] },
            { nid := "m1", hasData := true, parent := some 0,
              children := [] } ],
        visited := [("m1", 1), ("m1", 0)],
        threads := [(0, false)] } ∧
    lookupV (step initTState c3Rec).visited "m1" = some 1 := by
  have h := c3_amended initTState c3Rec rfl (by decide) (by decide)
  simpa using h

/-- C10: after processing any record, the visited map binds the record's
`id` to the freshly created node for that record (a newer binding shadows
any earlier one, e.g. a placeholder's); and in the scenario where a
placeholder "m1" exists before the real "m1" arrives, a later reply to
"m1" attaches to the newest "m1" node while the placeholder keeps its
previously attached child in its own thread. -/
theorem c10_visited_overwrite :
    (∀ (s : TState) (r : CRecord), ∃ k,
      s.nodes.length ≤ k ∧
      lookupV (step s r).visited r.messageId = some k ∧
      ∃ nd, (step s r).nodes[k]? = some nd ∧
        nd.hasData = true ∧ nd.nid = r.messageId) ∧
    getThreads c10Input = c10Result := by
  constructor
  · intro s r
    by_cases h1 : r.inReplyTo = "None"
    · refine ⟨s.nodes.length, le_refl _, ?_, ?_⟩
      · rw [step, if_pos (by simpa using h1)]
        simp [lookupV]
      · refine ⟨{ nid := r.messageId, hasData := true, parent := none,
                  children := [] }, ?_, rfl, rfl⟩
        rw [step, if_pos (by simpa using h1)]
        rw [List.getElem?_append_right (le_refl _)]
        simp
    · cases h2 : lookupV s.visited r.inReplyTo with
      | none =>
          refine ⟨s.nodes.length + 1, Nat.le_succ _, ?_, ?_⟩
          · rw [step, if_neg (by simpa using h1), h2]
            simp [lookupV]
          · refine ⟨{ nid := r.messageId, hasData := true,
                      parent := some s.nodes.length, children := [] },
              ?_, rfl, rfl⟩
            rw [step, if_neg (by simpa using h1), h2]
            rw [List.getElem?_append_right (Nat.le_succ _)]
            simp
      | some pidx =>
          refine ⟨s.nodes.length, le_refl _, ?_, ?_⟩
          · rw [step, if_neg (by simpa using h1), h2]
            simp [lookupV]
          · refine ⟨{ nid := r.messageId, hasData := true,
                      parent := some pidx, children := [] }, ?_, rfl, rfl⟩
            rw [step, if_neg (by simpa using h1), h2]
            have hlen : (addChild s.nodes pidx s.nodes.length).length
                = s.nodes.length := addChild_length _ _ _
            show ((addChild s.nodes pidx s.nodes.length ++ _))[s.nodes.length]?
              = _
            rw [List.getElem?_append_right (le_of_eq hlen)]
            simp [hlen]
  · decide

theorem lookupV_mem {v : List (String × Nat)} {k : String} {j : Nat}
    (h : lookupV v k = some j) : ∃ p ∈ v, p.2 = j := by
  unfold lookupV at h
  cases hf : v.find? (fun p => p.1 == k) with
  | none => rw [hf] at h; cases h
  | some p =>
      rw [hf] at h
      exact ⟨p, List.mem_of_find?_eq_some hf, by simpa using h⟩

theorem countP_updateAt {p : α → Bool} (f : α → α)
    (hf : ∀ a, p (f a) = p a) :
    ∀ (l : List α) (i : Nat), (updateAt l i f).countP p = l.countP p := by
  intro l
  induction l with
  | nil => intro i; rfl
  | cons x xs ih =>
      intro i
      cases i with
      | zero => simp [updateAt, List.countP_cons, hf]
      | succ n => simp [updateAt, List.countP_cons, ih n]

theorem goodState_init : goodState 0 initTState := by
  refine ⟨rfl, ?_, ?_, ?_, ?_⟩
  · intro p hp; cases hp
  · intro t ht; cases ht
  · intro i nd hi; simp [initTState] at hi
  · intro i nd j hi; simp [initTState] at hi

theorem step_good {n : Nat} {s : TState} (hs : goodState n s) (r : CRecord) :
    goodState (n + 1) (step s r) := by
  obtain ⟨hcount, hvis, hthr, hroot, hdec⟩ := hs
  by_cases h1 : r.inReplyTo = "None"
  · -- sentinel case: new root node, new known thread
    rw [step, if_pos (by simpa using h1)]
    refine ⟨?_, ?_, ?_, ?_, ?_⟩
    · simp [List.countP_append, List.countP_cons, hcount]
    · intro p hp
      rcases List.mem_cons.mp hp with rfl | hp
      · simp
      · simp only [List.length_append, List.length_cons, List.length_nil]
        exact lt_of_lt_of_le (hvis p hp) (by omega)
    · intro t ht
      rcases List.mem_append.mp ht with ht | ht
      · simp only [List.length_append, List.length_cons, List.length_nil]
        exact lt_of_lt_of_le (hthr t ht) (by omega)
      · rcases List.mem_singleton.mp ht with rfl
        simp
    · intro i nd hi
      dsimp only at hi ⊢
      by_cases hiL : i < s.nodes.length
      · rw [getElem?_append_lt hiL] at hi
        rw [hroot i nd hi]
        constructor
        · rintro ⟨b, hb⟩
          exact ⟨b, List.mem_append_left _ hb⟩
        · rintro ⟨b, hb⟩
          rcases List.mem_append.mp hb with hb | hb
          · exact ⟨b, hb⟩
          · rcases List.mem_singleton.mp hb with h
            rw [Prod.mk.injEq] at h
            omega
      · rw [List.getElem?_append_right (Nat.le_of_not_lt hiL)] at hi
        have hi0 : i - s.nodes.length = 0 := by
          rcases Nat.lt_or_ge (i - s.nodes.length) 1 with h | h
          · omega
          · rw [List.getElem?_eq_none (by simpa using h)] at hi
            cases hi
        have hieq : i = s.nodes.length := by omega
        rw [hi0] at hi
        simp only [List.getElem?_cons_zero, Option.some.injEq] at hi
        subst hi
        simp only [hieq]
        constructor
        · intro _
          exact ⟨true, List.mem_append_right _ (List.mem_singleton.mpr rfl)⟩
        · intro _
          trivial
    · intro i nd j hi hp
      dsimp only at hi
      by_cases hiL : i < s.nodes.length
      · rw [getElem?_append_lt hiL] at hi
        exact hdec i nd j hi hp
      · rw [List.getElem?_append_right (Nat.le_of_not_lt hiL)] at hi
        have hi0 : i - s.nodes.length = 0 := by
          rcases Nat.lt_or_ge (i - s.nodes.length) 1 with h | h
          · omega
          · rw [List.getElem?_eq_none (by simpa using h)] at hi
            cases hi
        rw [hi0] at hi
        simp only [List.getElem?_cons_zero, Option.some.injEq] at hi
        subst hi
        cases hp
  · cases h2 : lookupV s.visited r.inReplyTo with
    | none =>
        -- unseen reference: placeholder root plus child, new unknown thread
        rw [step, if_neg (by simpa using h1), h2]
        refine ⟨?_, ?_, ?_, ?_, ?_⟩
        · simp [List.countP_append, List.countP_cons, hcount]
        · intro p hp
          rcases List.mem_cons.mp hp with rfl | hp
          · simp
          · rcases List.mem_cons.mp hp with rfl | hp
            · simp
            · simp only [List.length_append, List.length_cons, List.length_nil]
              exact lt_of_lt_of_le (hvis p hp) (by omega)
        · intro t ht
          rcases List.mem_append.mp ht with ht | ht
          · simp only [List.length_append, List.length_cons, List.length_nil]
            exact lt_of_lt_of_le (hthr t ht) (by omega)
          · rcases List.mem_singleton.mp ht with rfl
            simp
        · intro i nd hi
          dsimp only at hi ⊢
          by_cases hiL : i < s.nodes.length
          · rw [getElem?_append_lt hiL] at hi
            rw [hroot i nd hi]
            constructor
            · rintro ⟨b, hb⟩
              exact ⟨b, List.mem_append_left _ hb⟩
            · rintro ⟨b, hb⟩
              rcases List.mem_append.mp hb with hb | hb
              · exact ⟨b, hb⟩
              · rcases List.mem_singleton.mp hb with h
                rw [Prod.mk.injEq] at h
                omega
          · rw [List.getElem?_append_right (Nat.le_of_not_lt hiL)] at hi
            rcases Nat.lt_or_ge (i - s.nodes.length) 2 with hlt | hge
            swap
            · rw [List.getElem?_eq_none (by simpa using hge)] at hi
              cases hi
            rcases Nat.lt_or_ge (i - s.nodes.length) 1 with hlt1 | hge1
            · -- the placeholder root
              have hi0 : i - s.nodes.length = 0 := by omega
              have hieq : i = s.nodes.length := by omega
              rw [hi0] at hi
              simp only [List.getElem?_cons_zero, Option.some.injEq] at hi
              subst hi
              simp only [hieq]
              constructor
              · intro _
                exact ⟨false,
                  List.mem_append_right _ (List.mem_singleton.mpr rfl)⟩
              · intro _
                trivial
            · -- the record's own node, child of the placeholder
              have hi1 : i - s.nodes.length = 1 := by omega
              have hieq : i = s.nodes.length + 1 := by omega
              rw [hi1] at hi
              simp only [List.getElem?_cons_succ, List.getElem?_cons_zero,
                Option.some.injEq] at hi
              subst hi
              simp only [hieq]
              constructor
              · intro h
                cases h
              · rintro ⟨b, hb⟩
                rcases List.mem_append.mp hb with hb | hb
                · exact absurd (hthr _ hb) (by simp)
                · rcases List.mem_singleton.mp hb with h
                  rw [Prod.mk.injEq] at h
                  omega
        · intro i nd j hi hp
          dsimp only at hi
          by_cases hiL : i < s.nodes.length
          · rw [getElem?_append_lt hiL] at hi
            exact hdec i nd j hi hp
          · rw [List.getElem?_append_right (Nat.le_of_not_lt hiL)] at hi
            rcases Nat.lt_or_ge (i - s.nodes.length) 2 with hlt | hge
            swap
            · rw [List.getElem?_eq_none (by simpa using hge)] at hi
              cases hi
            rcases Nat.lt_or_ge (i - s.nodes.length) 1 with hlt1 | hge1
            · have hi0 : i - s.nodes.length = 0 := by omega
              rw [hi0] at hi
              simp only [List.getElem?_cons_zero, Option.some.injEq] at hi
              subst hi
              cases hp
            · have hi1 : i - s.nodes.length = 1 := by omega
              rw [hi1] at hi
              simp only [List.getElem?_cons_succ, List.getElem?_cons_zero,
                Option.some.injEq] at hi
              subst hi
              rw [Option.some.injEq] at hp
              omega
    | some pidx =>
        -- known reference: attach to the visited node
        rw [step, if_neg (by simpa using h1), h2]
        rcases lookupV_mem h2 with ⟨p, hpmem, hpj⟩
        have hpidx : pidx < s.nodes.length := hpj ▸ hvis p hpmem
        have hlen : (addChild s.nodes pidx s.nodes.length).length
            = s.nodes.length := addChild_length _ _ _
        have hpreserve : ∀ i : Nat, i < s.nodes.length →
            ∃ nd0, (addChild s.nodes pidx s.nodes.length)[i]? = some nd0 ∧
              ∀ nd, s.nodes[i]? = some nd →
                nd0.parent = nd.parent ∧ nd0.hasData = nd.hasData := by
          intro i hi
          unfold addChild
          rw [updateAt_getElem?]
          cases hs0 : s.nodes[i]? with
          | none =>
              rw [List.getElem?_eq_none_iff] at hs0
              omega
          | some ndo =>
              split
              · refine ⟨{ ndo with
                    children := ndo.children ++ [s.nodes.length] },
                  by simp, ?_⟩
                intro nd hnd
                simp only [Option.some.injEq] at hnd
                subst hnd
                exact ⟨rfl, rfl⟩
              · refine ⟨ndo, rfl, ?_⟩
                intro nd hnd
                simp only [Option.some.injEq] at hnd
                subst hnd
                exact ⟨rfl, rfl⟩
        refine ⟨?_, ?_, ?_, ?_, ?_⟩
        · rw [List.countP_append]
          unfold addChild
          rw [countP_updateAt
            (fun nd => { nd with children := nd.children ++ [s.nodes.length] })
            (fun a => rfl) s.nodes pidx]
          simp [List.countP_cons, hcount]
        · intro p' hp'
          rcases List.mem_cons.mp hp' with rfl | hp'
          · simp only [List.length_append, List.length_cons, List.length_nil,
              hlen]
            omega
          · simp only [List.length_append, List.length_cons, List.length_nil,
              hlen]
            exact lt_of_lt_of_le (hvis p' hp') (by omega)
        · intro t ht
          simp only [List.length_append, List.length_cons, List.length_nil,
            hlen]
          exact lt_of_lt_of_le (hthr t ht) (by omega)
        · intro i nd hi
          dsimp only at hi ⊢
          by_cases hiL : i < s.nodes.length
          · have hlt2 : i < (addChild s.nodes pidx s.nodes.length).length := by
              rw [hlen]
              exact hiL
            rw [getElem?_append_lt hlt2] at hi
            rcases hpreserve i hiL with ⟨nd0, hnd0, hsame⟩
            rw [hnd0] at hi
            simp only [Option.some.injEq] at hi
            subst hi
            cases hs0 : s.nodes[i]? with
            | none =>
                rw [List.getElem?_eq_none_iff] at hs0
                omega
            | some ndOld =>
                rw [(hsame ndOld hs0).1]
                exact hroot i ndOld hs0
          · have hge2 : (addChild s.nodes pidx s.nodes.length).length ≤ i := by
              rw [hlen]
              exact Nat.le_of_not_lt hiL
            rw [List.getElem?_append_right hge2] at hi
            rw [hlen] at hi
            have hi0 : i - s.nodes.length = 0 := by
              rcases Nat.lt_or_ge (i - s.nodes.length) 1 with h | h
              · omega
              · rw [List.getElem?_eq_none (by simpa using h)] at hi
                cases hi
            have hieq : i = s.nodes.length := by omega
            rw [hi0] at hi
            simp only [List.getElem?_cons_zero, Option.some.injEq] at hi
            subst hi
            constructor
            · intro h
              cases h
            · rintro ⟨b, hb⟩
              rw [hieq] at hb
              exact absurd (hthr _ hb) (by simp)
        · intro i nd j hi hp
          dsimp only at hi
          by_cases hiL : i < s.nodes.length
          · have hlt2 : i < (addChild s.nodes pidx s.nodes.length).length := by
              rw [hlen]
              exact hiL
            rw [getElem?_append_lt hlt2] at hi
            rcases hpreserve i hiL with ⟨nd0, hnd0, hsame⟩
            rw [hnd0] at hi
            simp only [Option.some.injEq] at hi
            subst hi
            cases hs0 : s.nodes[i]? with
            | none =>
                rw [List.getElem?_eq_none_iff] at hs0
                omega
            | some ndOld =>
                rw [(hsame ndOld hs0).1] at hp
                exact hdec i ndOld j hs0 hp
          · have hge2 : (addChild s.nodes pidx s.nodes.length).length ≤ i := by
              rw [hlen]
              exact Nat.le_of_not_lt hiL
            rw [List.getElem?_append_right hge2] at hi
            rw [hlen] at hi
            have hi0 : i - s.nodes.length = 0 := by
              rcases Nat.lt_or_ge (i - s.nodes.length) 1 with h | h
              · omega
              · rw [List.getElem?_eq_none (by simpa using h)] at hi
                cases hi
            have hieq : i = s.nodes.length := by omega
            rw [hi0] at hi
            simp only [List.getElem?_cons_zero, Option.some.injEq] at hi
            subst hi
            rw [Option.some.injEq] at hp
            omega

theorem goodState_foldl :
    ∀ (data : List CRecord) (s : TState) (n : Nat),
      goodState n s → goodState (n + data.length) (data.foldl step s) := by
  intro data
  induction data with
  | nil => intro s n h; simpa using h
  | cons r rest ih =>
      intro s n h
      have e : n + (r :: rest).length = (n + 1) + rest.length := by
        simp [List.length_cons]
        omega
      rw [List.foldl_cons, e]
      exact ih (step s r) (n + 1) (step_good h r)

theorem transGen_lt {st : TState}
    (h : ∀ (i : Nat) (nd : TNode) (j : Nat),
      st.nodes[i]? = some nd → nd.parent = some j → j < i) :
    ∀ i j, Relation.TransGen (parentStep st) i j → j < i := by
  intro i j hij
  induction hij with
  | single hs =>
      rcases hs with ⟨nd, h1, h2⟩
      exact h _ _ _ h1 h2
  | tail _ hstep ih =>
      rcases hstep with ⟨nd, h1, h2⟩
      exact lt_trans (h _ _ _ h1 h2) ih

/-- C5: building threads yields exactly one data-carrying Thread Node per
Canonical record (placeholders carry none and are additional); a node has
no parent precisely when it is the root of some Thread (so every non-root
node has exactly one parent); and no node reaches itself by repeated
parent traversal. -/
theorem c5_forest (data : List CRecord) :
    ((getThreads data).nodes.countP (fun nd => nd.hasData) = data.length) ∧
    (∀ (i : Nat) (nd : TNode), (getThreads data).nodes[i]? = some nd →
      (nd.parent = none ↔ ∃ b, (i, b) ∈ (getThreads data).threads)) ∧
    (∀ i, ¬ Relation.TransGen (parentStep (getThreads data)) i i) := by
  have h := goodState_foldl data initTState 0 goodState_init
  rw [Nat.zero_add] at h
  refine ⟨h.1, h.2.2.2.1, ?_⟩
  intro i hcyc
  exact absurd (transGen_lt h.2.2.2.2 i i hcyc) (lt_irrefl i)

/-- Witness instantiating `c5_forest` on a two-record archive. -/
theorem c5_witness :
    ((getThreads c5Input).nodes.countP (fun nd => nd.hasData) = 2) ∧
    (({ nid := "m2", hasData := true, parent := some 0,
        children := [] } : TNode).parent = none ↔
      ∃ b, (1, b) ∈ (getThreads c5Input).threads) ∧
    ¬ Relation.TransGen (parentStep (getThreads c5Input)) 0 0 :=
  ⟨(c5_forest c5Input).1,
   (c5_forest c5Input).2.1 1 _ (by decide),
   (c5_forest c5Input).2.2 0⟩

/-- C9: on the two-body scenario the top candidate is the shared trimmed
footer with tally 1; a `None` body in the collection is skipped without
changing the result; and an empty collection yields an empty result. -/
theorem c9_footer :
    findFooter
        [ some "Hello\n--\nSent from my phone",
          some "Hi there\n--\nSent from my phone" ] 1
      = [(1, "--\nSent from my phone")] ∧
    findFooter
        [ some "Hello\n--\nSent from my phone", none,
          some "Hi there\n--\nSent from my phone" ] 1
      = [(1, "--\nSent from my phone")] ∧
    ∀ number : Nat, findFooter [] number = [] := by
  refine ⟨by decide, by decide, ?_⟩
  intro number
  show List.take number _ = []
  rw [show (sortBy tupleDesc ((mergeOuter (footerWalk none []
      (orderBodies (([] : List (Option String)).map (Option.map strRev))))
      (sortBy tupleDesc ((footerWalk none []
        (orderBodies (([] : List (Option String)).map (Option.map strRev)))).map
          (fun p => (p.2, p.1))))).map (fun p => (p.2, p.1)))) = [] from rfl]
  exact List.take_nil

end BigBang

